import Mathlib

/-!
# Verification of the tame_your_files core

Shallow embedding of the two analysis components of the repository:

* `file_size_utilities.py` — the Size Analyzer (`largest_files`,
  `files_to_free_space`);
* `find_duplicates.py` — the Duplicate Finder (`find_duplicates` dispatcher
  and the three strategy functions).

The filesystem is modelled as a `DirTree`: a root path, a flag saying
whether the root exists and is a directory, and the list of entries that a
recursive traversal under the root discovers, in discovery order.  Each
entry carries its full path, its base name (final path component) and a
kind: a regular file with its byte content, a directory, or a
non-directory entry that is not a regular file (broken symlink, device,
socket); `stat`/`open` on the latter fail with `OSError` and the Python
code skips them where it catches that error.

Python's `sorted` and `heapq.nlargest` are stable; they are embedded with
`List.insertionSort`, which is also stable, over the same comparison keys.
-/

namespace TameYourFiles

/-- The kind of a filesystem entry seen during traversal.  `regular`
carries the file's byte content (`st_size` is its length); `other` is a
non-directory, non-regular-file entry, on which per-file `stat`/`open`
raise `OSError`. -/
inductive EntryKind
  | regular (content : List Nat)
  | directory
  | other
deriving DecidableEq

/-- Is this entry kind a regular file (what `Path.is_file()` reports)? -/
def EntryKind.isRegularFile : EntryKind → Bool
  | .regular _ => true
  | _ => false

/-- One filesystem entry discovered by a recursive traversal: absolute
canonical path, base name (final path component) and kind. -/
structure Entry where
  path : String
  name : String
  kind : EntryKind
deriving DecidableEq

/-- A directory tree handed to the analysis functions: the root path as a
string, whether that root exists and is a directory, and the entries a
recursive walk below the root discovers, in discovery order. -/
structure DirTree where
  root : String
  isDir : Bool
  entries : List Entry
deriving DecidableEq

/-! ## Size Analyzer (`file_size_utilities.py`) -/

/-- `FileInfo` dataclass of `file_size_utilities.py`: absolute path and
size in bytes. -/
structure FileInfo where
  path : String
  size_bytes : Nat
deriving DecidableEq

/-- The `FileInfo` record collected for an entry when `item.is_file()`
holds, `none` otherwise. -/
def Entry.fileInfo? (e : Entry) : Option FileInfo :=
  match e.kind with
  | .regular c => some ⟨e.path, c.length⟩
  | _ => none

/-- The `root.rglob("*")` / `is_file()` / `stat()` collection loop shared
by `largest_files` and `files_to_free_space`: all regular files under the
root, in discovery order.  A root that does not exist or is not a
directory yields no entries (the surrounding `try`/`except OSError` in the
source absorbs any traversal error, leaving the accumulator empty). -/
def scanFiles (d : DirTree) : List FileInfo :=
  if d.isDir then d.entries.filterMap Entry.fileInfo? else []

/-- Comparison key of `heapq.nlargest(n, file_infos, key=lambda x:
x.size_bytes)`: descending by size, stable on ties. -/
def sizeDescLe (a b : FileInfo) : Prop :=
  b.size_bytes ≤ a.size_bytes

instance : DecidableRel sizeDescLe := fun a b =>
  inferInstanceAs (Decidable (b.size_bytes ≤ a.size_bytes))

/-- Comparison key `lambda x: (-x.size_bytes, str(x.path))` used by both
Size Analyzer operations: size descending, ties by path ascending.  Python
compares the path strings lexicographically by code point, embedded here
as the lexicographic order on the character lists of the paths. -/
def sizePathLe (a b : FileInfo) : Prop :=
  b.size_bytes < a.size_bytes ∨
    (a.size_bytes = b.size_bytes ∧ a.path.data ≤ b.path.data)

instance : DecidableRel sizePathLe := fun a b =>
  inferInstanceAs (Decidable (b.size_bytes < a.size_bytes ∨
    (a.size_bytes = b.size_bytes ∧ a.path.data ≤ b.path.data)))

/-- `largest_files(root, n)`: collect all regular files, keep the `n`
largest by size (`heapq.nlargest`, stable on ties), then sort the kept
files by `(-size_bytes, str(path))`. -/
def largest_files (d : DirTree) (n : Nat) : List FileInfo :=
  List.insertionSort sizePathLe
    ((List.insertionSort sizeDescLe (scanFiles d)).take n)

/-- The greedy accumulation loop of `files_to_free_space`: append files in
order, keeping a running total, and stop right after the file that makes
the running total reach the target. -/
def greedyCover (target : Int) : Int → List FileInfo → List FileInfo
  | _, [] => []
  | acc, f :: fs =>
    if target ≤ acc + f.size_bytes then [f]
    else f :: greedyCover target (acc + f.size_bytes) fs

/-- `files_to_free_space(root, target_bytes)`: empty on a non-positive
target; otherwise collect all regular files, sort by
`(-size_bytes, str(path))` and take the greedy prefix that first meets the
target. -/
def files_to_free_space (d : DirTree) (target_bytes : Int) : List FileInfo :=
  if target_bytes ≤ 0 then []
  else greedyCover target_bytes 0 (List.insertionSort sizePathLe (scanFiles d))

/-- Sum of the sizes of a list of `FileInfo` records. -/
def sumSizes (l : List FileInfo) : Nat :=
  (l.map FileInfo.size_bytes).sum

/-! ## Duplicate Finder (`find_duplicates.py`) -/

/-- The `files` lists produced by `os.walk(directory)` over the whole
tree: every non-directory entry under the root, in discovery order.
`os.walk` on a path that does not exist or is not a directory yields
nothing. -/
def walkFiles (d : DirTree) : List Entry :=
  if d.isDir then
    d.entries.filter (fun e => decide (e.kind ≠ EntryKind.directory))
  else []

/-- Identity key of a duplicate group: a base name, a byte size, or a
content digest (the three strategies key their dictionaries with these
three kinds of value). -/
inductive DupKey
  | name (s : String)
  | size (n : Nat)
  | digest (h : List Nat)
deriving DecidableEq

/-- One step of the `iter(lambda: f.read(4096), b"")` loop of
`find_duplicates_by_content`, with an explicit fuel bound: each iteration
takes the next 4096-byte chunk until the remaining content is empty.  The
fuel only makes the recursion structural; `readChunks` supplies enough
fuel for the loop to run to completion. -/
def readChunksFuel : Nat → List Nat → List (List Nat)
  | 0, _ => []
  | _ + 1, [] => []
  | fuel + 1, b :: rest =>
    (b :: rest).take 4096 :: readChunksFuel fuel ((b :: rest).drop 4096)

/-- The successive 4096-byte chunks of a file's content, in the order the
read loop feeds them to the incremental hash. -/
def readChunks (l : List Nat) : List (List Nat) :=
  readChunksFuel l.length l

/-- The MD5 digest of `find_duplicates_by_content`, fed chunk by chunk.
The 128-bit digest is modelled as the byte stream that the chunk loop
feeds to the hash: an ideal collision-free digest, so that digest
equality is exactly equality of the hashed stream (only digest equality
is observable in the program). -/
def md5Digest (content : List Nat) : List Nat :=
  (readChunks content).flatten

/-- The keys of a `defaultdict` in first-insertion order, as iterated by
the final dict comprehension of each strategy. -/
def firstKeys : List (DupKey × String) → List DupKey
  | [] => []
  | (k, _) :: rest => k :: (firstKeys rest).filter (fun k2 => decide (k2 ≠ k))

/-- The list accumulated under key `k` by a `defaultdict(list)` fed the
pairs `ps` in order. -/
def groupVals (ps : List (DupKey × String)) (k : DupKey) : List String :=
  (ps.filter (fun p => decide (p.1 = k))).map Prod.snd

/-- Build the `defaultdict` from key/path pairs and keep only the groups
with more than one member — the final
`{key: paths for ... if len(paths) > 1}` comprehension shared by all
three strategies. -/
def dupGroups (ps : List (DupKey × String)) : List (DupKey × List String) :=
  (firstKeys ps).filterMap (fun k =>
    if 1 < (groupVals ps k).length then some (k, groupVals ps k) else none)

/-- Key/path pairs inserted by `find_duplicates_by_name`: every walked
(non-directory) entry, keyed by its base name. -/
def namePairs (d : DirTree) : List (DupKey × String) :=
  (walkFiles d).map (fun e => (DupKey.name e.name, e.path))

/-- Key/path pairs inserted by `find_duplicates_by_size`: walked entries
keyed by `os.path.getsize`; entries on which the size lookup raises
`OSError` are skipped. -/
def sizePairs (d : DirTree) : List (DupKey × String) :=
  (walkFiles d).filterMap (fun e =>
    match e.kind with
    | .regular c => some (DupKey.size c.length, e.path)
    | _ => none)

/-- Key/path pairs inserted by `find_duplicates_by_content`: walked
entries keyed by the streamed MD5 digest of their content; entries on
which `open`/`read` raises `OSError` are skipped. -/
def contentPairs (d : DirTree) : List (DupKey × String) :=
  (walkFiles d).filterMap (fun e =>
    match e.kind with
    | .regular c => some (DupKey.digest (md5Digest c), e.path)
    | _ => none)

/-- `find_duplicates_by_name(directory)`. -/
def find_duplicates_by_name (d : DirTree) : List (DupKey × List String) :=
  dupGroups (namePairs d)

/-- `find_duplicates_by_size(directory)`. -/
def find_duplicates_by_size (d : DirTree) : List (DupKey × List String) :=
  dupGroups (sizePairs d)

/-- `find_duplicates_by_content(directory)`. -/
def find_duplicates_by_content (d : DirTree) : List (DupKey × List String) :=
  dupGroups (contentPairs d)

/-- The two exceptions `find_duplicates` can raise: `FileNotFoundError`
and `ValueError`, each carrying its message. -/
inductive DupError
  | fileNotFound (msg : String)
  | valueError (msg : String)
deriving DecidableEq

instance {ε α : Type} [DecidableEq ε] [DecidableEq α] :
    DecidableEq (Except ε α) := fun x y =>
  match x, y with
  | .error a, .error b =>
    if h : a = b then isTrue (by rw [h])
    else isFalse (fun hc => h (by injection hc))
  | .ok a, .ok b =>
    if h : a = b then isTrue (by rw [h])
    else isFalse (fun hc => h (by injection hc))
  | .error _, .ok _ => isFalse (fun hc => Except.noConfusion hc)
  | .ok _, .error _ => isFalse (fun hc => Except.noConfusion hc)

/-- `find_duplicates(directory, method)`: reject a root that is not a
directory with `FileNotFoundError`, then dispatch on the method string,
rejecting unknown methods with `ValueError`. -/
def find_duplicates (d : DirTree) (method : String) :
    Except DupError (List (DupKey × List String)) :=
  if d.isDir = false then
    Except.error (DupError.fileNotFound
      ("The directory \x27" ++ d.root ++
        "\x27 does not exist or is not a directory."))
  else if method = "name" then Except.ok (find_duplicates_by_name d)
  else if method = "size" then Except.ok (find_duplicates_by_size d)
  else if method = "content" then Except.ok (find_duplicates_by_content d)
  else
    Except.error (DupError.valueError
      ("Invalid method: " ++ method ++
        ". Must be \x27name\x27, \x27size\x27, or \x27content\x27."))

/-- Two paths lie in a common group of a grouping result. -/
def inSameGroup (gm : List (DupKey × List String)) (p q : String) : Prop :=
  ∃ g ∈ gm, p ∈ g.2 ∧ q ∈ g.2

/-- The selection the specification describes for `largest_files`: sort
all collected files by `(-size_bytes, path)` and keep the first `n`.
Stated from the spec's words, for comparison with `largest_files`. -/
def largest_files_specOrder (d : DirTree) (n : Nat) : List FileInfo :=
  (List.insertionSort sizePathLe (scanFiles d)).take n

/-! ## Concrete directory trees used by witnesses and counterexamples -/

def exNonposDir : DirTree :=
  ⟨"/r", true, [⟨"/r/a", "a", EntryKind.regular [0]⟩]⟩

def exExceedDir : DirTree :=
  ⟨"/r", true,
    [⟨"/r/a", "a", EntryKind.regular [0]⟩,
     ⟨"/r/b", "b", EntryKind.regular [0, 1]⟩]⟩

def exGreedyDir : DirTree :=
  ⟨"/r", true,
    [⟨"/r/a", "a", EntryKind.regular [0, 1]⟩,
     ⟨"/r/b", "b", EntryKind.regular [0, 1, 2]⟩]⟩

def exBadRoot : DirTree := ⟨"/missing", false, []⟩

/-- A directory with two size-tied files whose discovery order is the
reverse of their path order: `heapq.nlargest(1, ...)` keeps the tied file
discovered first, not the one that is first in path order. -/
def exBoundaryTieDir : DirTree :=
  ⟨"/r", true,
    [⟨"/r/b", "b", EntryKind.regular [0]⟩,
     ⟨"/r/a", "a", EntryKind.regular [0]⟩]⟩

def exEmptyPairDir : DirTree :=
  ⟨"/r", true,
    [⟨"/r/a", "a", EntryKind.regular []⟩,
     ⟨"/r/b", "b", EntryKind.regular []⟩]⟩

/-- A directory whose two walked entries with a shared base name are not
regular files (e.g. two broken symlinks named `x`). -/
def exNonRegularDir : DirTree :=
  ⟨"/r", true,
    [⟨"/r/s1/x", "x", EntryKind.other⟩,
     ⟨"/r/s2/x", "x", EntryKind.other⟩]⟩

def exDupNameDir : DirTree :=
  ⟨"/r", true,
    [⟨"/r/s1/x", "x", EntryKind.other⟩,
     ⟨"/r/s2/x", "x", EntryKind.other⟩,
     ⟨"/r/y", "y", EntryKind.regular [1]⟩]⟩

def exValidDir : DirTree :=
  ⟨"/r", true, [⟨"/r/a", "a", EntryKind.regular [1]⟩]⟩

def exBadBoth : DirTree := ⟨"/missing", false, []⟩

/-! ## Facts about the sorting keys -/

instance : IsTotal FileInfo sizeDescLe :=
  ⟨fun a b => Nat.le_total b.size_bytes a.size_bytes⟩

instance : IsTrans FileInfo sizeDescLe :=
  ⟨fun _ _ _ hab hbc => le_trans hbc hab⟩

instance : IsTotal FileInfo sizePathLe := by
  constructor
  intro a b
  unfold sizePathLe
  rcases Nat.lt_trichotomy a.size_bytes b.size_bytes with h | h | h
  · exact Or.inr (Or.inl h)
  · rcases le_total a.path.data b.path.data with hp | hp
    · exact Or.inl (Or.inr ⟨h, hp⟩)
    · exact Or.inr (Or.inr ⟨h.symm, hp⟩)
  · exact Or.inl (Or.inl h)

instance : IsTrans FileInfo sizePathLe := by
  constructor
  intro a b c hab hbc
  unfold sizePathLe at *
  rcases hab with hab | ⟨hab, hab'⟩
  · rcases hbc with hbc | ⟨hbc, _⟩
    · exact Or.inl (lt_trans hbc hab)
    · exact Or.inl (hbc ▸ hab)
  · rcases hbc with hbc | ⟨hbc, hbc'⟩
    · exact Or.inl (hab ▸ hbc)
    · exact Or.inr ⟨hab.trans hbc, le_trans hab' hbc'⟩

theorem sizePathLe_imp_sizeDescLe {a b : FileInfo} (h : sizePathLe a b) :
    sizeDescLe a b := by
  rcases h with h | ⟨h, _⟩
  · exact le_of_lt h
  · exact le_of_eq h.symm

/-! ## Facts about the greedy accumulation loop -/

theorem sumSizes_nil : sumSizes [] = 0 := rfl

theorem sumSizes_cons (f : FileInfo) (l : List FileInfo) :
    sumSizes (f :: l) = f.size_bytes + sumSizes l := by
  simp [sumSizes]

theorem sumSizes_perm {l l' : List FileInfo} (h : l.Perm l') :
    sumSizes l = sumSizes l' :=
  (h.map FileInfo.size_bytes).sum_eq

theorem greedyCover_sublist (T : Int) :
    ∀ (l : List FileInfo) (a : Int), (greedyCover T a l).Sublist l
  | [], _ => by simp [greedyCover]
  | f :: fs, a => by
    unfold greedyCover
    split
    · exact (List.nil_sublist fs).cons₂ f
    · exact (greedyCover_sublist T fs (a + f.size_bytes)).cons₂ f

theorem greedyCover_sum_ge (T : Int) :
    ∀ (l : List FileInfo) (a : Int), T ≤ a + sumSizes l →
      T ≤ a + sumSizes (greedyCover T a l)
  | [], a, h => h
  | f :: fs, a, h => by
    unfold greedyCover
    split
    · rename_i hstop
      rw [sumSizes_cons]
      push_cast
      omega
    · rename_i hgo
      rw [sumSizes_cons] at h ⊢
      have ih := greedyCover_sum_ge T fs (a + f.size_bytes) (by push_cast at h ⊢; omega)
      push_cast at ih ⊢
      omega

theorem greedyCover_dropLast_lt (T : Int) :
    ∀ (l : List FileInfo) (a : Int), a < T →
      a + sumSizes (greedyCover T a l).dropLast < T
  | [], a, h => by simpa [greedyCover, sumSizes_nil] using h
  | f :: fs, a, h => by
    unfold greedyCover
    split
    · simpa [sumSizes_nil] using h
    · rename_i hgo
      have hfs : (a + f.size_bytes : Int) < T := by omega
      have ih := greedyCover_dropLast_lt T fs (a + f.size_bytes) hfs
      cases hg : greedyCover T (a + f.size_bytes) fs with
      | nil => simpa [sumSizes_nil] using h
      | cons x g =>
        rw [hg] at ih
        rw [List.dropLast_cons₂, sumSizes_cons]
        push_cast at ih ⊢
        omega

theorem greedyCover_all (T : Int) :
    ∀ (l : List FileInfo) (a : Int), a + sumSizes l < T → greedyCover T a l = l
  | [], _, _ => rfl
  | f :: fs, a, h => by
    rw [sumSizes_cons] at h
    unfold greedyCover
    rw [if_neg (by push_cast at h ⊢; omega)]
    rw [greedyCover_all T fs (a + f.size_bytes) (by push_cast at h ⊢; omega)]

/-- The sorted file list both Size Analyzer operations work from. -/
theorem sortedScan_sorted (d : DirTree) :
    (List.insertionSort sizePathLe (scanFiles d)).Sorted sizePathLe :=
  List.sorted_insertionSort sizePathLe (scanFiles d)

theorem sortedScan_perm (d : DirTree) :
    (List.insertionSort sizePathLe (scanFiles d)).Perm (scanFiles d) :=
  List.perm_insertionSort sizePathLe (scanFiles d)

/-! ## Claims about the Size Analyzer -/

/-- C7: for every root directory and every target `T ≤ 0`,
`files_to_free_space` returns an empty sequence. -/
theorem files_to_free_space_nonpos_target (d : DirTree) (T : Int)
    (hT : T ≤ 0) : files_to_free_space d T = [] := by
  unfold files_to_free_space
  rw [if_pos hT]

theorem files_to_free_space_nonpos_target_witness :
    files_to_free_space exNonposDir (-5) = [] :=
  files_to_free_space_nonpos_target exNonposDir (-5) (by decide)

/-- C6: for every directory and every target strictly greater than the
total size of all regular files, `files_to_free_space` returns every
discoverable regular file, in descending-size order, with cumulative size
equal to the true total (and no error is raised). -/
theorem files_to_free_space_target_exceeds_total (d : DirTree) (T : Int)
    (hT : (sumSizes (scanFiles d) : Int) < T) :
    (files_to_free_space d T).Perm (scanFiles d)
    ∧ (files_to_free_space d T).Sorted sizeDescLe
    ∧ sumSizes (files_to_free_space d T) = sumSizes (scanFiles d) := by
  have h0 : ¬ T ≤ 0 := by
    have : (0 : Int) ≤ (sumSizes (scanFiles d) : Int) := Int.natCast_nonneg _
    omega
  have hsum : sumSizes (List.insertionSort sizePathLe (scanFiles d))
      = sumSizes (scanFiles d) := sumSizes_perm (sortedScan_perm d)
  have hall : files_to_free_space d T
      = List.insertionSort sizePathLe (scanFiles d) := by
    unfold files_to_free_space
    rw [if_neg h0]
    exact greedyCover_all T _ 0 (by rw [hsum]; omega)
  refine ⟨?_, ?_, ?_⟩
  · rw [hall]; exact sortedScan_perm d
  · rw [hall]
    exact (sortedScan_sorted d).imp fun h => sizePathLe_imp_sizeDescLe h
  · rw [hall, hsum]

theorem files_to_free_space_target_exceeds_total_witness :
    (files_to_free_space exExceedDir 100).Perm (scanFiles exExceedDir)
    ∧ (files_to_free_space exExceedDir 100).Sorted sizeDescLe
    ∧ sumSizes (files_to_free_space exExceedDir 100)
        = sumSizes (scanFiles exExceedDir) :=
  files_to_free_space_target_exceeds_total exExceedDir 100 (by decide)

/-- C1: for every root directory and every target `T` with
`0 < T ≤ total`, `files_to_free_space` returns a sequence in
descending-size order whose cumulative size is at least `T`, and removing
the last element drops the cumulative size strictly below `T` (the greedy
prefix is minimal). -/
theorem files_to_free_space_greedy_minimal (d : DirTree) (T : Int)
    (h0 : 0 < T) (hT : T ≤ (sumSizes (scanFiles d) : Int)) :
    (files_to_free_space d T).Sorted sizeDescLe
    ∧ T ≤ (sumSizes (files_to_free_space d T) : Int)
    ∧ (sumSizes ((files_to_free_space d T).dropLast) : Int) < T := by
  have hne : ¬ T ≤ 0 := by omega
  have hsum : sumSizes (List.insertionSort sizePathLe (scanFiles d))
      = sumSizes (scanFiles d) := sumSizes_perm (sortedScan_perm d)
  have hdef : files_to_free_space d T
      = greedyCover T 0 (List.insertionSort sizePathLe (scanFiles d)) := by
    unfold files_to_free_space
    rw [if_neg hne]
  refine ⟨?_, ?_, ?_⟩
  · rw [hdef]
    exact ((sortedScan_sorted d).sublist (greedyCover_sublist T _ 0)).imp
      fun h => sizePathLe_imp_sizeDescLe h
  · rw [hdef]
    have := greedyCover_sum_ge T
      (List.insertionSort sizePathLe (scanFiles d)) 0 (by rw [hsum]; omega)
    omega
  · rw [hdef]
    have := greedyCover_dropLast_lt T
      (List.insertionSort sizePathLe (scanFiles d)) 0 h0
    omega

theorem files_to_free_space_greedy_minimal_witness :
    (files_to_free_space exGreedyDir 4).Sorted sizeDescLe
    ∧ (4 : Int) ≤ (sumSizes (files_to_free_space exGreedyDir 4) : Int)
    ∧ (sumSizes ((files_to_free_space exGreedyDir 4).dropLast) : Int) < 4 :=
  files_to_free_space_greedy_minimal exGreedyDir 4 (by decide) (by decide)

/-- C8: for every root path that does not exist or is not a directory,
`largest_files` and `files_to_free_space` return an empty result and
raise no exception, unlike `find_duplicates`, which raises
`FileNotFoundError` for the same root. -/
theorem invalid_root_silent_empty (d : DirTree) (hd : d.isDir = false) :
    (∀ n, largest_files d n = [])
    ∧ (∀ T, files_to_free_space d T = [])
    ∧ (∀ m, ∃ s, find_duplicates d m
        = Except.error (DupError.fileNotFound s)) := by
  have hscan : scanFiles d = [] := by
    unfold scanFiles
    rw [hd]
    rfl
  refine ⟨?_, ?_, ?_⟩
  · intro n
    unfold largest_files
    rw [hscan]
    simp
  · intro T
    unfold files_to_free_space
    rw [hscan]
    split
    · rfl
    · rfl
  · intro m
    refine ⟨"The directory \x27" ++ d.root ++
      "\x27 does not exist or is not a directory.", ?_⟩
    unfold find_duplicates
    rw [if_pos hd]

theorem invalid_root_silent_empty_witness :
    (∀ n, largest_files exBadRoot n = [])
    ∧ (∀ T, files_to_free_space exBadRoot T = [])
    ∧ (∀ m, ∃ s, find_duplicates exBadRoot m
        = Except.error (DupError.fileNotFound s)) :=
  invalid_root_silent_empty exBadRoot rfl

/-- C2 counterexample: at the `N`-boundary, `largest_files` does not
return the length-`min(N, #files)` prefix of the file list sorted by
`(-size, path)`; the size-tied file kept is the one discovered first, not
the path-ascending one. -/
theorem largest_files_boundary_tie_cex :
    largest_files exBoundaryTieDir 1
      ≠ largest_files_specOrder exBoundaryTieDir 1 := by decide

/-- C2 amended: `largest_files(D, N)` returns `min(N, #files)` records,
sorted by size descending with ties broken by path ascending, each drawn
from the discoverable regular files, and no omitted file is larger than
any returned file; but which size-tied files are selected at the
`N`-boundary follows traversal discovery order, not path order. -/
theorem largest_files_amended (d : DirTree) (n : Nat) :
    (largest_files d n).length = min n (scanFiles d).length
    ∧ (largest_files d n).Sorted sizePathLe
    ∧ (∀ f ∈ largest_files d n, f ∈ scanFiles d)
    ∧ ∀ g ∈ scanFiles d, g ∉ largest_files d n →
        ∀ f ∈ largest_files d n, g.size_bytes ≤ f.size_bytes := by
  have hmem : ∀ x, x ∈ largest_files d n ↔
      x ∈ (List.insertionSort sizeDescLe (scanFiles d)).take n := by
    intro x
    unfold largest_files
    exact List.mem_insertionSort sizePathLe
  refine ⟨?_, ?_, ?_, ?_⟩
  · unfold largest_files
    rw [List.length_insertionSort, List.length_take,
      List.length_insertionSort]
  · exact List.sorted_insertionSort sizePathLe _
  · intro f hf
    have hf' := (hmem f).mp hf
    have : f ∈ List.insertionSort sizeDescLe (scanFiles d) :=
      (List.take_sublist n _).mem hf'
    exact (List.mem_insertionSort sizeDescLe).mp this
  · intro g hg hgout f hf
    set s := List.insertionSort sizeDescLe (scanFiles d) with hs
    have hsort : s.Sorted sizeDescLe := List.sorted_insertionSort _ _
    have hgs : g ∈ s := (List.mem_insertionSort sizeDescLe).mpr hg
    have hgtake : g ∉ s.take n := fun hc => hgout ((hmem g).mpr hc)
    have hgdrop : g ∈ s.drop n := by
      rcases List.mem_append.mp
        ((List.take_append_drop n s).symm ▸ hgs) with h | h
      · exact absurd h hgtake
      · exact h
    have hftake : f ∈ s.take n := (hmem f).mp hf
    exact hsort.rel_of_mem_take_of_mem_drop hftake hgdrop

/-! ## Facts about the grouping machinery -/

theorem mem_groupVals {ps : List (DupKey × String)} {k : DupKey}
    {p : String} : p ∈ groupVals ps k ↔ (k, p) ∈ ps := by
  unfold groupVals
  simp only [List.mem_map, List.mem_filter, decide_eq_true_eq]
  constructor
  · rintro ⟨⟨k', p'⟩, ⟨hmem, hk⟩, hp⟩
    simp only at hk hp
    rw [← hk, ← hp]
    exact hmem
  · intro h
    exact ⟨(k, p), ⟨h, rfl⟩, rfl⟩

theorem mem_firstKeys {ps : List (DupKey × String)} {k : DupKey} :
    k ∈ firstKeys ps ↔ ∃ p, (k, p) ∈ ps := by
  induction ps with
  | nil => simp [firstKeys]
  | cons hd tl ih =>
    obtain ⟨k', v⟩ := hd
    by_cases hk : k = k'
    · subst hk
      simp [firstKeys]
    · simp only [firstKeys, List.mem_cons, List.mem_filter,
        decide_eq_true_eq, Prod.mk.injEq]
      constructor
      · rintro (h | ⟨h, _⟩)
        · exact absurd h hk
        · obtain ⟨p, hp⟩ := ih.mp h
          exact ⟨p, Or.inr hp⟩
      · rintro ⟨p, (⟨h, _⟩ | hp)⟩
        · exact absurd h hk
        · exact Or.inr ⟨ih.mpr ⟨p, hp⟩, hk⟩

theorem mem_dupGroups {ps : List (DupKey × String)}
    {g : DupKey × List String} : g ∈ dupGroups ps ↔
      g.1 ∈ firstKeys ps ∧ g.2 = groupVals ps g.1
        ∧ 1 < (groupVals ps g.1).length := by
  unfold dupGroups
  simp only [List.mem_filterMap]
  constructor
  · rintro ⟨k, hk, hf⟩
    by_cases hlen : 1 < (groupVals ps k).length
    · rw [if_pos hlen] at hf
      injection hf with hf
      rw [← hf]
      exact ⟨hk, rfl, hlen⟩
    · rw [if_neg hlen] at hf
      exact absurd hf (by simp)
  · rintro ⟨hk, hv, hlen⟩
    refine ⟨g.1, hk, ?_⟩
    rw [if_pos hlen, ← hv]

theorem two_mem_one_lt_length {α : Type} [DecidableEq α] {l : List α}
    {a b : α} (ha : a ∈ l) (hb : b ∈ l) (hne : a ≠ b) : 1 < l.length := by
  have hb' : b ∈ l.erase a := (List.mem_erase_of_ne (Ne.symm hne)).mpr hb
  have h1 : 0 < (l.erase a).length := List.length_pos.mpr
    (fun hc => by rw [hc] at hb'; exact absurd hb' (List.not_mem_nil b))
  have h2 := List.length_erase_of_mem ha
  omega

theorem group_exists_of_two {ps : List (DupKey × String)} {k : DupKey}
    {p q : String} (hp : (k, p) ∈ ps) (hq : (k, q) ∈ ps) (hne : p ≠ q) :
    ∃ g ∈ dupGroups ps, g.1 = k ∧ p ∈ g.2 ∧ q ∈ g.2 := by
  have hpv : p ∈ groupVals ps k := mem_groupVals.mpr hp
  have hqv : q ∈ groupVals ps k := mem_groupVals.mpr hq
  refine ⟨(k, groupVals ps k), ?_, rfl, hpv, hqv⟩
  exact mem_dupGroups.mpr
    ⟨mem_firstKeys.mpr ⟨p, hp⟩, rfl, two_mem_one_lt_length hpv hqv hne⟩

theorem inSameGroup_dupGroups {ps : List (DupKey × String)}
    {p q : String} (h : inSameGroup (dupGroups ps) p q) :
    ∃ k, (k, p) ∈ ps ∧ (k, q) ∈ ps := by
  obtain ⟨g, hg, hp, hq⟩ := h
  obtain ⟨-, hv, -⟩ := mem_dupGroups.mp hg
  rw [hv] at hp hq
  exact ⟨g.1, mem_groupVals.mp hp, mem_groupVals.mp hq⟩

/-! ## Facts about the streamed digest -/

theorem readChunksFuel_flatten :
    ∀ (fuel : Nat) (l : List Nat), l.length ≤ fuel →
      (readChunksFuel fuel l).flatten = l
  | 0, l, h => by
    have hl : l = [] := List.length_eq_zero.mp (Nat.le_zero.mp h)
    rw [hl]
    rfl
  | _ + 1, [], _ => rfl
  | fuel + 1, b :: rest, h => by
    have hlen : ((b :: rest).drop 4096).length ≤ fuel := by
      simp only [List.length_drop, List.length_cons]
      simp only [List.length_cons] at h
      omega
    rw [readChunksFuel, List.flatten_cons,
      readChunksFuel_flatten fuel ((b :: rest).drop 4096) hlen]
    exact List.take_append_drop 4096 (b :: rest)

/-- Streaming a file's content through the chunk loop feeds exactly the
content: the digest of the modelled hash determines the content. -/
theorem md5Digest_eq (c : List Nat) : md5Digest c = c := by
  unfold md5Digest readChunks
  exact readChunksFuel_flatten c.length c le_rfl

/-! ## Facts about the traversal and the strategy pair lists -/

theorem mem_of_mem_walkFiles {d : DirTree} {e : Entry}
    (h : e ∈ walkFiles d) : e ∈ d.entries := by
  unfold walkFiles at h
  by_cases hd : d.isDir = true
  · rw [if_pos hd] at h
    exact List.mem_of_mem_filter h
  · rw [if_neg hd] at h
    exact absurd h (List.not_mem_nil e)

theorem mem_contentPairs {d : DirTree} {k : DupKey} {p : String} :
    (k, p) ∈ contentPairs d ↔
      ∃ e ∈ walkFiles d, ∃ c, e.kind = EntryKind.regular c
        ∧ k = DupKey.digest (md5Digest c) ∧ p = e.path := by
  unfold contentPairs
  simp only [List.mem_filterMap]
  constructor
  · rintro ⟨e, he, hf⟩
    refine ⟨e, he, ?_⟩
    revert hf
    cases hk : e.kind with
    | regular c =>
      intro hf
      simp only [Option.some.injEq, Prod.mk.injEq] at hf
      exact ⟨c, rfl, hf.1.symm, hf.2.symm⟩
    | directory => intro hf; exact absurd hf (by simp)
    | other => intro hf; exact absurd hf (by simp)
  · rintro ⟨e, he, c, hc, hk, hp⟩
    refine ⟨e, he, ?_⟩
    rw [hc, hk, hp]

theorem contentPairs_key_unique {d : DirTree}
    (hno : (d.entries.map Entry.path).Nodup) {k1 k2 : DupKey} {p : String}
    (h1 : (k1, p) ∈ contentPairs d) (h2 : (k2, p) ∈ contentPairs d) :
    k1 = k2 := by
  obtain ⟨e1, he1, c1, hc1, hk1, hp1⟩ := mem_contentPairs.mp h1
  obtain ⟨e2, he2, c2, hc2, hk2, hp2⟩ := mem_contentPairs.mp h2
  have hee : e1 = e2 := List.inj_on_of_nodup_map hno
    (mem_of_mem_walkFiles he1) (mem_of_mem_walkFiles he2)
    (by rw [← hp1, ← hp2])
  have hcc : c1 = c2 := by
    have := hc1 ▸ hee ▸ hc2
    injection this
  rw [hk1, hk2, hcc]

/-! ## Claims about the Duplicate Finder -/

/-- C3: for every directory, the by-content strategy places two files in
the same group exactly when their byte contents are identical (content
equality via equality of the streamed digest); in particular two
zero-byte files are grouped together under the empty-input digest. -/
theorem find_duplicates_by_content_iff_content_eq (d : DirTree)
    (hno : (d.entries.map Entry.path).Nodup) (e1 e2 : Entry)
    (h1 : e1 ∈ walkFiles d) (h2 : e2 ∈ walkFiles d) (c1 c2 : List Nat)
    (hk1 : e1.kind = EntryKind.regular c1)
    (hk2 : e2.kind = EntryKind.regular c2) (hne : e1.path ≠ e2.path) :
    (inSameGroup (find_duplicates_by_content d) e1.path e2.path ↔ c1 = c2)
    ∧ (c1 = [] → c2 = [] →
      ∃ g ∈ find_duplicates_by_content d,
        g.1 = DupKey.digest (md5Digest []) ∧ e1.path ∈ g.2 ∧ e2.path ∈ g.2)
    := by
  have hpair1 : (DupKey.digest (md5Digest c1), e1.path) ∈ contentPairs d :=
    mem_contentPairs.mpr ⟨e1, h1, c1, hk1, rfl, rfl⟩
  have hpair2 : (DupKey.digest (md5Digest c2), e2.path) ∈ contentPairs d :=
    mem_contentPairs.mpr ⟨e2, h2, c2, hk2, rfl, rfl⟩
  constructor
  · constructor
    · intro hsame
      obtain ⟨k, hp1, hp2⟩ := inSameGroup_dupGroups hsame
      have hk1' : k = DupKey.digest (md5Digest c1) :=
        contentPairs_key_unique hno hp1 hpair1
      have hk2' : k = DupKey.digest (md5Digest c2) :=
        contentPairs_key_unique hno hp2 hpair2
      have : md5Digest c1 = md5Digest c2 := by
        have := hk1' ▸ hk2'
        injection this
      rwa [md5Digest_eq, md5Digest_eq] at this
    · intro hcc
      obtain ⟨g, hg, -, hpg, hqg⟩ :=
        group_exists_of_two (hcc ▸ hpair1) hpair2 hne
      exact ⟨g, hg, hpg, hqg⟩
  · intro hc1 hc2
    rw [hc1] at hpair1
    rw [hc2] at hpair2
    exact group_exists_of_two hpair1 hpair2 hne

theorem find_duplicates_by_content_iff_content_eq_witness :
    (inSameGroup (find_duplicates_by_content exEmptyPairDir)
        "/r/a" "/r/b" ↔ ([] : List Nat) = [])
    ∧ (([] : List Nat) = [] → ([] : List Nat) = [] →
      ∃ g ∈ find_duplicates_by_content exEmptyPairDir,
        g.1 = DupKey.digest (md5Digest []) ∧ "/r/a" ∈ g.2 ∧ "/r/b" ∈ g.2) :=
  find_duplicates_by_content_iff_content_eq exEmptyPairDir (by decide)
    ⟨"/r/a", "a", EntryKind.regular []⟩ ⟨"/r/b", "b", EntryKind.regular []⟩
    (by decide) (by decide) [] [] rfl rfl (by decide)

theorem pair_in_dupGroups {ps : List (DupKey × String)} {k : DupKey}
    {p : String} : (∃ g ∈ dupGroups ps, g.1 = k ∧ p ∈ g.2) ↔
      ((k, p) ∈ ps ∧ 1 < (groupVals ps k).length) := by
  constructor
  · rintro ⟨g, hg, hk, hp⟩
    obtain ⟨-, hv, hlen⟩ := mem_dupGroups.mp hg
    rw [hv, hk] at hp
    rw [hk] at hlen
    exact ⟨mem_groupVals.mp hp, hlen⟩
  · rintro ⟨hp, hlen⟩
    exact ⟨(k, groupVals ps k),
      mem_dupGroups.mpr ⟨mem_firstKeys.mpr ⟨p, hp⟩, rfl, hlen⟩,
      rfl, mem_groupVals.mpr hp⟩

theorem mem_namePairs {d : DirTree} {k : DupKey} {p : String} :
    (k, p) ∈ namePairs d ↔
      ∃ e ∈ walkFiles d, k = DupKey.name e.name ∧ p = e.path := by
  unfold namePairs
  simp only [List.mem_map, Prod.mk.injEq]
  constructor
  · rintro ⟨e, he, hk, hp⟩
    exact ⟨e, he, hk.symm, hp.symm⟩
  · rintro ⟨e, he, hk, hp⟩
    exact ⟨e, he, hk.symm, hp.symm⟩

theorem groupVals_namePairs_length (d : DirTree) (base : String) :
    (groupVals (namePairs d) (DupKey.name base)).length
      = ((walkFiles d).filter (fun e => decide (e.name = base))).length := by
  unfold groupVals namePairs
  rw [List.filter_map, List.length_map, List.length_map]
  congr 1
  apply List.filter_congr
  intro e _
  simp [Function.comp]

/-- C9 counterexample: the by-name strategy groups paths of entries that
are not regular files — here a group contains the path of an entry on
which `is_file` would be false (`os.walk` puts every non-directory entry
in its `files` list and `find_duplicates_by_name` never checks). -/
theorem find_duplicates_by_name_nonregular_cex :
    (∃ g ∈ find_duplicates_by_name exNonRegularDir, "/r/s1/x" ∈ g.2)
    ∧ ∀ e ∈ exNonRegularDir.entries,
        EntryKind.isRegularFile e.kind = false := by decide

/-- C9 amended: the by-name strategy groups, by exact (case-sensitive)
base name, all non-directory entries walked under the root — regular
files and also non-regular non-directory entries such as broken
symlinks; directory entries never appear.  A path appears in the group
keyed by `base` exactly when a walked non-directory entry has that path
and that base name, and at least two walked entries share the name. -/
theorem find_duplicates_by_name_amended (d : DirTree) (p base : String) :
    (∃ g ∈ find_duplicates_by_name d, g.1 = DupKey.name base ∧ p ∈ g.2) ↔
      ((∃ e ∈ walkFiles d, e.path = p ∧ e.name = base)
        ∧ 1 < ((walkFiles d).filter
            (fun e => decide (e.name = base))).length) := by
  unfold find_duplicates_by_name
  rw [pair_in_dupGroups, groupVals_namePairs_length, mem_namePairs]
  constructor
  · rintro ⟨⟨e, he, hk, hp⟩, hlen⟩
    injection hk with hk
    exact ⟨⟨e, he, hp.symm, hk.symm⟩, hlen⟩
  · rintro ⟨⟨e, he, hp, hk⟩, hlen⟩
    exact ⟨⟨e, he, by rw [hk], hp.symm⟩, hlen⟩

theorem dupGroups_two_le (ps : List (DupKey × String)) :
    ∀ g ∈ dupGroups ps, 2 ≤ g.2.length := by
  intro g hg
  obtain ⟨-, hv, hlen⟩ := mem_dupGroups.mp hg
  rw [hv]
  omega

/-- C5: for every directory and every strategy, every group in the
mapping returned by `find_duplicates` has at least two member paths;
singleton groups are never present. -/
theorem find_duplicates_groups_min_two (d : DirTree) (m : String)
    (gm : List (DupKey × List String))
    (h : find_duplicates d m = Except.ok gm) :
    ∀ g ∈ gm, 2 ≤ g.2.length := by
  unfold find_duplicates at h
  split_ifs at h with h1 h2 h3 h4 <;>
  injection h with h <;>
  rw [← h] <;>
  first
    | exact dupGroups_two_le (namePairs d)
    | exact dupGroups_two_le (sizePairs d)
    | exact dupGroups_two_le (contentPairs d)

theorem find_duplicates_groups_min_two_witness :
    2 ≤ (DupKey.name "x", ["/r/s1/x", "/r/s2/x"]).2.length :=
  find_duplicates_groups_min_two exDupNameDir "name"
    [(DupKey.name "x", ["/r/s1/x", "/r/s2/x"])] (by decide)
    (DupKey.name "x", ["/r/s1/x", "/r/s2/x"]) (by decide)

/-- C4: `find_duplicates` raises `ValueError` naming the offending value
for every strategy selector outside name/size/content when the path is a
valid directory, and raises `FileNotFoundError` for every path that does
not exist or is not a directory, in both cases before any traversal. -/
theorem find_duplicates_validation (d : DirTree) (m : String)
    (hm : m ≠ "name" ∧ m ≠ "size" ∧ m ≠ "content") :
    (d.isDir = true →
      ∃ pre post, find_duplicates d m
        = Except.error (DupError.valueError (pre ++ m ++ post)))
    ∧ (d.isDir = false →
      ∃ pre post, find_duplicates d m
        = Except.error (DupError.fileNotFound (pre ++ d.root ++ post)))
    := by
  obtain ⟨hn, hs, hc⟩ := hm
  constructor
  · intro hd
    refine ⟨"Invalid method: ",
      ". Must be \x27name\x27, \x27size\x27, or \x27content\x27.", ?_⟩
    unfold find_duplicates
    rw [if_neg (by rw [hd]; simp), if_neg hn, if_neg hs, if_neg hc]
  · intro hd
    refine ⟨"The directory \x27",
      "\x27 does not exist or is not a directory.", ?_⟩
    unfold find_duplicates
    rw [if_pos hd]

theorem find_duplicates_validation_witness :
    (exValidDir.isDir = true →
      ∃ pre post, find_duplicates exValidDir "hash"
        = Except.error (DupError.valueError (pre ++ "hash" ++ post)))
    ∧ (exValidDir.isDir = false →
      ∃ pre post, find_duplicates exValidDir "hash"
        = Except.error
            (DupError.fileNotFound (pre ++ exValidDir.root ++ post))) :=
  find_duplicates_validation exValidDir "hash" (by decide)

/-- C10: when the path is not a directory and the strategy selector is
also invalid, the `FileNotFoundError` is raised, not the `ValueError`:
the directory check precedes strategy validation in the dispatcher. -/
theorem find_duplicates_notfound_precedence (d : DirTree) (m : String)
    (hd : d.isDir = false)
    (_hm : m ≠ "name" ∧ m ≠ "size" ∧ m ≠ "content") :
    (∃ s, find_duplicates d m = Except.error (DupError.fileNotFound s))
    ∧ ∀ t, find_duplicates d m ≠ Except.error (DupError.valueError t)
    := by
  have herr : find_duplicates d m = Except.error (DupError.fileNotFound
      ("The directory \x27" ++ d.root ++
        "\x27 does not exist or is not a directory.")) := by
    unfold find_duplicates
    rw [if_pos hd]
  refine ⟨⟨_, herr⟩, ?_⟩
  intro t hc
  rw [herr] at hc
  injection hc with hc
  exact DupError.noConfusion hc

theorem find_duplicates_notfound_precedence_witness :
    (∃ s, find_duplicates exBadBoth "hash"
      = Except.error (DupError.fileNotFound s))
    ∧ ∀ t, find_duplicates exBadBoth "hash"
        ≠ Except.error (DupError.valueError t) :=
  find_duplicates_notfound_precedence exBadBoth "hash" rfl (by decide)

/-- On a valid directory the dispatcher with selector `content` returns
exactly the by-content grouping (and similarly for the other direct
strategy entry points). -/
theorem find_duplicates_dispatch_ok (d : DirTree) (hd : d.isDir = true) :
    find_duplicates d "name" = Except.ok (find_duplicates_by_name d)
    ∧ find_duplicates d "size" = Except.ok (find_duplicates_by_size d)
    ∧ find_duplicates d "content"
        = Except.ok (find_duplicates_by_content d) := by
  have hne : ¬ d.isDir = false := by rw [hd]; simp
  refine ⟨?_, ?_, ?_⟩ <;>
    · unfold find_duplicates
      rw [if_neg hne]
      simp

end TameYourFiles
